import Mathlib

/-!
Verification of the text-indexing and retrieval core of the DatMin-TuBes
repository (an Indonesian-language TF-IDF search engine) via a shallow
embedding of its Python modules.  Python dicts are embedded as insertion
ordered association lists, Python sets as insertion ordered duplicate-free
lists, floats as real numbers.
-/

namespace IR

/-- `d.get(k)` on a Python dict embedded as an association list. -/
def dictGet {α : Type} (m : List (String × α)) (k : String) : Option α :=
  match m with
  | [] => none
  | (k', v) :: rest => if k' = k then some v else dictGet rest k

/-- `d[k] = v` on a Python dict: update in place if the key exists
(preserving insertion order), append otherwise. -/
def dictSet {α : Type} (m : List (String × α)) (k : String) (v : α) :
    List (String × α) :=
  match m with
  | [] => [(k, v)]
  | (k', v') :: rest =>
      if k' = k then (k, v) :: rest else (k', v') :: dictSet rest k v

/-- The keys of an embedded dict, in insertion order. -/
def keys {α : Type} (m : List (String × α)) : List String := m.map Prod.fst

/-- The values of an embedded dict, in insertion order. -/
def values {α : Type} (m : List (String × α)) : List α := m.map Prod.snd

/-- `s.add(x)` on a Python set embedded as a duplicate-free list. -/
def setAdd (s : List String) (x : String) : List String :=
  if x ∈ s then s else s ++ [x]

/-! ## indexing.py -/

/-- `InvertedIndex`: term -> {doc_id: tf} (indexing.py). -/
abbrev InvertedIndex : Type := List (String × List (String × Nat))

/-- Membership test against the optional `allowed_terms` filter of
`build_inverted_index`: `allowed_terms is None or t in allowed_terms`. -/
def allowedOk (allowed : Option (List String)) (t : String) : Bool :=
  match allowed with
  | none => true
  | some s => s.contains t

/-- One step of the per-document tf-counting loop of `build_inverted_index`:
`if allowed_terms is not None and t not in allowed_terms: continue;
tf_map[t] = tf_map.get(t, 0) + 1`. -/
def tfStep (allowed : Option (List String)) (m : List (String × Nat))
    (t : String) : List (String × Nat) :=
  if allowedOk allowed t then dictSet m t ((dictGet m t).getD 0 + 1) else m

/-- The per-document `tf_map` of `build_inverted_index`. -/
def tfMap (toks : List String) (allowed : Option (List String)) :
    List (String × Nat) :=
  toks.foldl (tfStep allowed) []

/-- Posting insertion of `build_inverted_index`:
`postings = index.setdefault(t, {}); postings[doc_id] = tf`. -/
def postStep (docId : String) (index : InvertedIndex)
    (p : String × Nat) : InvertedIndex :=
  dictSet index p.1 (dictSet ((dictGet index p.1).getD []) docId p.2)

/-- `build_inverted_index(doc_tokens, allowed_terms)` (indexing.py). -/
def build_inverted_index (docTokens : List (String × List String))
    (allowed : Option (List String)) : InvertedIndex :=
  docTokens.foldl
    (fun index p => (tfMap p.2 allowed).foldl (postStep p.1) index) []

/-- The set `docs` of `compute_idf`: the union of all postings keys, in
first-appearance order (`docs.update(postings.keys())` over the index). -/
def allDocs (index : InvertedIndex) : List String :=
  index.foldl (fun s p => (keys p.2).foldl setAdd s) []

/-- `N = max(1, len(docs))` of `compute_idf`. -/
def numDocs (index : InvertedIndex) : Nat := max 1 (allDocs index).length

/-- The idf value `compute_idf` stores for one postings list. -/
noncomputable def idfValue (N : Nat) (smooth : Bool)
    (postings : List (String × Nat)) : ℝ :=
  if smooth then Real.log ((1 + N) / (1 + postings.length)) + 1
  else Real.log (N / max 1 postings.length)

/-- `compute_idf(index, smooth)` (indexing.py). -/
noncomputable def compute_idf (index : InvertedIndex) (smooth : Bool) :
    List (String × ℝ) :=
  index.foldl
    (fun m p => dictSet m p.1 (idfValue (numDocs index) smooth p.2)) []

/-- Filtered occurrence count of one term in one document's token list:
the tf that the counting loop of `build_inverted_index` produces. -/
def filtCount (toks : List String) (allowed : Option (List String))
    (t : String) : Nat :=
  (toks.filter (fun x => allowedOk allowed x)).count t

/-- Lookup of a tf through an inverted index: the posting of `t` for `d`,
`none` when absent (absence means tf = 0). -/
def lookup2 (index : InvertedIndex) (t d : String) : Option Nat :=
  dictGet ((dictGet index t).getD []) d

/-- Document frequency of a term, as `compute_idf` derives it:
the size of the postings list. -/
def dfOf (index : InvertedIndex) (t : String) : Nat :=
  ((dictGet index t).getD []).length

/-! ## retrieval.py -/

/-- `TfidfModel` (retrieval.py): holds the idf table. -/
structure TfidfModel where
  idf : List (String × ℝ)

/-- `self.idf.get(term, 0.0)`. -/
noncomputable def idfGetD (m : List (String × ℝ)) (t : String) : ℝ :=
  (dictGet m t).getD 0

/-- `TfidfModel.tfidf(tf, term) = (1.0 + math.log(tf)) * idf.get(term, 0.0)`. -/
noncomputable def tfidf (model : TfidfModel) (tf : Nat) (t : String) : ℝ :=
  (1 + Real.log tf) * idfGetD model.idf t

/-- `math.sqrt(sum(v*v for v in vec.values()))`: the Euclidean norm of a
sparse vector. -/
noncomputable def l2norm (vec : List (String × ℝ)) : ℝ :=
  Real.sqrt ((values vec).map (fun v => v * v)).sum

/-- The normalization step shared by `build_doc_vectors` and
`build_query_vector`: `norm = sqrt(sum(v*v)) or 1.0; vec[t] /= norm`. -/
noncomputable def normalize (vec : List (String × ℝ)) : List (String × ℝ) :=
  let n := l2norm vec
  let n' := if n = 0 then 1 else n
  vec.map (fun p => (p.1, p.2 / n'))

open Classical in
/-- The accumulation loop of `build_doc_vectors`, before normalization. -/
noncomputable def accumDocVecs (index : InvertedIndex) (model : TfidfModel) :
    List (String × List (String × ℝ)) :=
  index.foldl
    (fun docs p =>
      if idfGetD model.idf p.1 = 0 then docs
      else
        p.2.foldl
          (fun docs q =>
            dictSet docs q.1
              (dictSet ((dictGet docs q.1).getD []) p.1 (tfidf model q.2 p.1)))
          docs)
    []

/-- `build_doc_vectors(index, model)` (retrieval.py). -/
noncomputable def build_doc_vectors (index : InvertedIndex)
    (model : TfidfModel) : List (String × List (String × ℝ)) :=
  (accumDocVecs index model).map (fun p => (p.1, normalize p.2))

open Classical in
/-- `build_query_vector(q_terms, model)` (retrieval.py): count tf only for
terms present in the idf table, weight, then normalize. -/
noncomputable def build_query_vector (qTerms : List String)
    (model : TfidfModel) : List (String × ℝ) :=
  let tf := qTerms.foldl
    (fun m t =>
      if (dictGet model.idf t).isSome then
        dictSet m t ((dictGet m t).getD 0 + 1)
      else m) []
  let vec := tf.foldl (fun v p => dictSet v p.1 (tfidf model p.2 p.1)) []
  normalize vec

/-- The dot product loop of `cosine`: iterate the first vector, look the
term up in the second. -/
noncomputable def dotImpl (q d : List (String × ℝ)) : ℝ :=
  (q.map (fun p => p.2 * (dictGet d p.1).getD 0)).sum

/-- `cosine(q, d)` (retrieval.py), including the swap to the smaller
vector. -/
noncomputable def cosine (q d : List (String × ℝ)) : ℝ :=
  if q = [] ∨ d = [] then 0
  else if d.length < q.length then dotImpl d q else dotImpl q d

/-- Descending-score order used by `scored.sort(key=lambda x: x[1],
reverse=True)`. -/
def scoreGE (a b : String × ℝ) : Prop := b.2 ≤ a.2

noncomputable instance : DecidableRel scoreGE :=
  fun _ _ => Classical.propDecidable _

instance : IsTotal (String × ℝ) scoreGE := ⟨fun a b => le_total b.2 a.2⟩

instance : IsTrans (String × ℝ) scoreGE :=
  ⟨fun _ _ _ h1 h2 => le_trans h2 h1⟩

/-- Python list slicing `l[:k]` for an `int` bound `k`: a negative bound
counts from the end, clamped at zero. -/
def pySlice {α : Type} (l : List α) (k : Int) : List α :=
  if 0 ≤ k then l.take k.toNat else l.take (l.length - (-k).toNat)

/-- The candidate set of `retrieve`: docs in the postings of any query
term (`if postings: cands.update(postings.keys())`). -/
def candidates (qVec : List (String × ℝ)) (index : InvertedIndex) :
    List String :=
  qVec.foldl
    (fun s p =>
      match dictGet index p.1 with
      | some ps => if ps = [] then s else (keys ps).foldl setAdd s
      | none => s)
    []

open Classical in
/-- The scoring loop of `retrieve`: keep candidates with positive cosine
score. -/
noncomputable def scoredList (qVec : List (String × ℝ))
    (index : InvertedIndex) (docVecs : List (String × List (String × ℝ))) :
    List (String × ℝ) :=
  (candidates qVec index).foldl
    (fun sc d =>
      let score := cosine qVec ((dictGet docVecs d).getD [])
      if 0 < score then sc ++ [(d, score)] else sc)
    []

/-- `retrieve(q_vec, index, doc_vecs, top_k)` (retrieval.py): score the
candidates, sort by descending score, return `scored[:top_k]`. -/
noncomputable def retrieve (qVec : List (String × ℝ)) (index : InvertedIndex)
    (docVecs : List (String × List (String × ℝ))) (topK : Int) :
    List (String × ℝ) :=
  pySlice (List.insertionSort scoreGE (scoredList qVec index docVecs)) topK

/-! ## feature_selection.py -/

/-- `compute_df(doc_tokens)` (feature_selection.py): for each document,
each distinct token counts once (`for t in set(toks): df[t] += 1`). -/
def compute_df (docTokens : List (String × List String)) :
    List (String × Nat) :=
  docTokens.foldl
    (fun df p =>
      p.2.dedup.foldl (fun df t => dictSet df t ((dictGet df t).getD 0 + 1)) df)
    []

/-- The `max_df = max(1, int(math.floor(max_df_ratio * N)))` bound of
`select_features_df`; the float ratio is embedded as a rational. -/
def maxDfBound (ratio : ℚ) (N : Nat) : Nat := (max 1 ⌊ratio * N⌋).toNat

/-- The filtered `kept` list of `select_features_df`, before sorting. -/
def keptList (docTokens : List (String × List String)) (minDf : Nat)
    (ratio : ℚ) : List (String × Nat) :=
  (compute_df docTokens).filter
    (fun p => minDf ≤ p.2 ∧ p.2 ≤ maxDfBound ratio docTokens.length)

/-- `kept.sort(key=lambda x: (-x[1], x[0]))`: ascending lexicographic order
on (negated df, term) — descending df, ties by ascending term. -/
def dfLex (a b : String × Nat) : Prop :=
  b.2 < a.2 ∨ (a.2 = b.2 ∧ a.1 ≤ b.1)

instance : DecidableRel dfLex := fun a b =>
  decidable_of_iff (b.2 < a.2 ∨ (a.2 = b.2 ∧ a.1 ≤ b.1)) Iff.rfl

instance : IsTotal (String × Nat) dfLex :=
  ⟨fun a b => by
    rcases lt_trichotomy a.2 b.2 with h | h | h
    · exact Or.inr (Or.inl h)
    · rcases le_total a.1 b.1 with h' | h'
      · exact Or.inl (Or.inr ⟨h, h'⟩)
      · exact Or.inr (Or.inr ⟨h.symm, h'⟩)
    · exact Or.inl (Or.inl h)⟩

instance : IsTrans (String × Nat) dfLex :=
  ⟨fun a b c hab hbc => by
    rcases hab with h1 | ⟨e1, l1⟩
    · rcases hbc with h2 | ⟨e2, _⟩
      · exact Or.inl (h2.trans h1)
      · exact Or.inl (e2 ▸ h1)
    · rcases hbc with h2 | ⟨e2, l2⟩
      · exact Or.inl (e1 ▸ h2)
      · exact Or.inr ⟨e1.trans e2, l1.trans l2⟩⟩

/-- The report dict returned by `select_features_df`: a three-field dict
in the `N == 0` early return, the full dict otherwise. -/
inductive FSReport where
  | short (n vocab selected : Nat)
  | full (n vocab selected minDf : Nat) (maxDfRatio : ℚ) (maxDf : Nat)
      (topN : Option Nat)
  deriving DecidableEq, Repr

/-- The sorted, capped `kept` list of `select_features_df`. -/
def keptSorted (docTokens : List (String × List String)) (minDf : Nat)
    (ratio : ℚ) (topN : Option Nat) : List (String × Nat) :=
  let sorted := List.insertionSort dfLex (keptList docTokens minDf ratio)
  match topN with
  | some n => if n < sorted.length then sorted.take n else sorted
  | none => sorted

/-- `select_features_df(doc_tokens, min_df, max_df_ratio, top_n)`
(feature_selection.py).  The selected set is embedded as the list of
surviving terms. -/
def select_features_df (docTokens : List (String × List String))
    (minDf : Nat) (ratio : ℚ) (topN : Option Nat) :
    List String × FSReport :=
  if docTokens.length = 0 then ([], .short 0 0 0)
  else
    let kept := keptSorted docTokens minDf ratio topN
    (kept.map Prod.fst,
     .full docTokens.length (compute_df docTokens).length kept.length minDf
       ratio (maxDfBound ratio docTokens.length) topN)

/-! ## stemmer_porter_id.py -/

/-- `VOWELS = set("aeiou")`. -/
def isVowel (c : Char) : Bool :=
  c = 'a' || c = 'e' || c = 'i' || c = 'o' || c = 'u'

/-- `_count_vowels(s)`: the stemmer's measure. -/
def countVowels (cs : List Char) : Nat := (cs.filter isVowel).length

/-- `StemState(measure, prefix_code)` of stemmer_porter_id.py. -/
structure StemState where
  measure : Int
  prefixCode : Nat

/-- `word.startswith(p)` on the character-list embedding. -/
def startsW (p : String) (w : List Char) : Bool := p.data.isPrefixOf w

/-- `word.endswith(s)` on the character-list embedding. -/
def endsW (s : String) (w : List Char) : Bool := s.data.isSuffixOf w

/-- `word[:-n]`: strip the last `n` characters. -/
def stripLast (w : List Char) (n : Nat) : List Char := w.take (w.length - n)

/-- `_remove_particle(word, st)`: strip at most one of `kah`/`lah`/`pun`
when the measure exceeds 2, decrementing the measure. -/
def particleStrip (w : List Char) (st : StemState) : List Char × StemState :=
  if endsW "kah" w ∧ 2 < st.measure then
    (stripLast w 3, { st with measure := st.measure - 1 })
  else if endsW "lah" w ∧ 2 < st.measure then
    (stripLast w 3, { st with measure := st.measure - 1 })
  else if endsW "pun" w ∧ 2 < st.measure then
    (stripLast w 3, { st with measure := st.measure - 1 })
  else (w, st)

/-- `_remove_possessive_pronoun(word, st)`: strip at most one of
`ku`/`mu`/`nya` under the same measure gate. -/
def possessiveStrip (w : List Char) (st : StemState) :
    List Char × StemState :=
  if endsW "ku" w ∧ 2 < st.measure then
    (stripLast w 2, { st with measure := st.measure - 1 })
  else if endsW "mu" w ∧ 2 < st.measure then
    (stripLast w 2, { st with measure := st.measure - 1 })
  else if endsW "nya" w ∧ 2 < st.measure then
    (stripLast w 3, { st with measure := st.measure - 1 })
  else (w, st)

/-- `_remove_first_order_prefix(word, st)` (stemmer_porter_id.py), with its
branch order preserved exactly: the plain `di`/`meng`/`me`/`ter` loop runs
before the `meny` special case. -/
def firstOrderStrip (w : List Char) (st : StemState) :
    List Char × StemState × Bool :=
  if startsW "di" w ∧ 2 < w.length then
    (w.drop 2, { measure := st.measure - 1, prefixCode := 1 }, true)
  else if startsW "meng" w ∧ 4 < w.length then
    (w.drop 4, { measure := st.measure - 1, prefixCode := 1 }, true)
  else if startsW "me" w ∧ 2 < w.length then
    (w.drop 2, { measure := st.measure - 1, prefixCode := 1 }, true)
  else if startsW "ter" w ∧ 3 < w.length then
    (w.drop 3, { measure := st.measure - 1, prefixCode := 1 }, true)
  else if startsW "meny" w ∧ 5 ≤ w.length ∧
      (w.getD 4 ' ' |> isVowel) then
    ('s' :: w.drop 4, { measure := st.measure - 1, prefixCode := 1 }, true)
  else if startsW "men" w ∧ 3 < w.length then
    (w.drop 3, { measure := st.measure - 1, prefixCode := 1 }, true)
  else if startsW "ke" w ∧ 2 < w.length then
    (w.drop 2, { measure := st.measure - 1, prefixCode := 3 }, true)
  else if startsW "peng" w ∧ 4 < w.length then
    (w.drop 4, { measure := st.measure - 1, prefixCode := 3 }, true)
  else if startsW "peny" w ∧ 5 ≤ w.length ∧
      (w.getD 4 ' ' |> isVowel) then
    ('s' :: w.drop 4, { measure := st.measure - 1, prefixCode := 3 }, true)
  else if startsW "pen" w ∧ 3 < w.length then
    (w.drop 3, { measure := st.measure - 1, prefixCode := 3 }, true)
  else if startsW "mem" w ∧ 3 < w.length then
    (let rest := w.drop 3
     if rest ≠ [] ∧ (rest.getD 0 ' ' |> isVowel) then
       ('p' :: rest, { measure := st.measure - 1, prefixCode := 1 }, true)
     else (rest, { measure := st.measure - 1, prefixCode := 1 }, true))
  else if startsW "pem" w ∧ 3 < w.length then
    (let rest := w.drop 3
     if rest ≠ [] ∧ (rest.getD 0 ' ' |> isVowel) then
       ('p' :: rest, { measure := st.measure - 1, prefixCode := 3 }, true)
     else (rest, { measure := st.measure - 1, prefixCode := 3 }, true))
  else (w, st, false)

/-- `_remove_second_order_prefix(word, st)` (stemmer_porter_id.py). -/
def secondOrderStrip (w : List Char) (st : StemState) :
    List Char × StemState × Bool :=
  if startsW "pelajar" w then
    (w.drop 3, { measure := st.measure - 1, prefixCode := 2 }, true)
  else if startsW "per" w ∧ 3 < w.length then
    (w.drop 3, { measure := st.measure - 1, prefixCode := 2 }, true)
  else if startsW "pe" w ∧ 2 < w.length then
    (w.drop 2, { measure := st.measure - 1, prefixCode := 2 }, true)
  else if startsW "belajar" w then
    (w.drop 3, { measure := st.measure - 1, prefixCode := 4 }, true)
  else if startsW "ber" w ∧ 3 < w.length then
    (w.drop 3, { measure := st.measure - 1, prefixCode := 4 }, true)
  else if startsW "be" w ∧ 5 ≤ w.length ∧ ¬(w.getD 2 ' ' |> isVowel) ∧
      (w.drop 3).take 2 = ['e', 'r'] then
    (w.drop 2, { measure := st.measure - 1, prefixCode := 4 }, true)
  else if startsW "be" w ∧ 2 < w.length then
    (w.drop 2, { measure := st.measure - 1, prefixCode := 4 }, true)
  else (w, st, false)

/-- `_remove_suffix(word, st)` (stemmer_porter_id.py): the `-kan`, `-an`,
`-i` derivational suffix rules, gated by measure > 2 on entry. -/
def suffixStrip (w : List Char) (st : StemState) :
    List Char × StemState × Bool :=
  if st.measure ≤ 2 then (w, st, false)
  else if endsW "kan" w ∧ 3 < w.length then
    (if st.prefixCode ≠ 2 ∧ st.prefixCode ≠ 3 then
       (stripLast w 3, { st with measure := st.measure - 1 }, true)
     else if st.prefixCode ≠ 1 then
       (stripLast w 2, { st with measure := st.measure - 1 }, true)
     else (w, st, false))
  else if endsW "an" w ∧ 2 < w.length then
    (if st.prefixCode ≠ 1 then
       (stripLast w 2, { st with measure := st.measure - 1 }, true)
     else (w, st, false))
  else if endsW "i" w ∧ 1 < w.length then
    (if st.prefixCode ≤ 2 ∧ ¬endsW "si" w then
       (stripLast w 1, { st with measure := st.measure - 1 }, true)
     else (w, st, false))
  else (w, st, false)

/-- `stem_word(word)` (stemmer_porter_id.py): the full measure-gated
particle / possessive / prefix / suffix workflow. -/
def stemChars (w : List Char) : List Char :=
  if w = [] then w
  else
    let st : StemState := ⟨(countVowels w : Nat), 0⟩
    if st.measure ≤ 2 then w
    else
      let (w2, st) := particleStrip w st
      if st.measure ≤ 2 then w2
      else
        let (w2, st) := possessiveStrip w2 st
        if st.measure ≤ 2 then w2
        else
          let st := { st with prefixCode := 0 }
          let (w3, st, removed1) := firstOrderStrip w2 st
          if removed1 then
            let (w3, st) :=
              if 2 < st.measure then
                let (w', st', _) := suffixStrip w3 st
                (w', st')
              else (w3, st)
            if 2 < st.measure then
              let (w3, _, _) := secondOrderStrip w3 st
              w3
            else w3
          else
            let (w4, st, removed2) := secondOrderStrip w2 st
            if removed2 ∧ 2 < st.measure then
              let (w4, _, _) := suffixStrip w4 st
              w4
            else w4

/-- `stem_word` on strings. -/
def stem_word (w : String) : String := ⟨stemChars w.data⟩

/-! ## Persisted index artifact (save_index / load_index)

`save_index`/`load_index` (indexing.py) delegate serialization to the
`json` standard library, whose code is outside the repository, and the
spec's persisted format carries `postings`, `df`, `docLen` and `N` fields
(the richer index record is not under src/ either — only its callers).
The JSON layer is therefore modelled from the spec at the JSON-value
level. -/

/-- Modelled from the spec: a JSON value as produced by `json.dump` /
consumed by `json.load` (the stdlib serializer is not part of the
repository source). -/
inductive JValue where
  | jnull : JValue
  | jbool : Bool → JValue
  | jnum : Int → JValue
  | jstr : String → JValue
  | jarr : List JValue → JValue
  | jobj : List (String × JValue) → JValue

/-- Modelled from the spec: the persisted index record with fields
`postings: map<Term, map<DocumentID,int>>`, `df: map<Term,int>`,
`docLen: map<DocumentID,int>`, `N: int` (spec §6; the record itself is
not under src/, only its save/load callers are). -/
structure IndexArtifact where
  postings : List (String × List (String × Nat))
  df : List (String × Nat)
  docLen : List (String × Nat)
  n : Nat
  deriving DecidableEq

/-- Encode a string-to-nat map as a JSON object. -/
def encNatMap (m : List (String × Nat)) : JValue :=
  .jobj (m.map (fun p => (p.1, .jnum p.2)))

/-- Encode the postings map as a JSON object of objects. -/
def encPostings (m : List (String × List (String × Nat))) : JValue :=
  .jobj (m.map (fun p => (p.1, encNatMap p.2)))

/-- `saveIndex`: serialize the artifact to a JSON value. -/
def saveIndex (a : IndexArtifact) : JValue :=
  .jobj [("postings", encPostings a.postings), ("df", encNatMap a.df),
         ("docLen", encNatMap a.docLen), ("N", .jnum a.n)]

/-- Option-valued traversal of JSON object fields: decode every field
value, fail if any fails. -/
def decFields {α : Type} (f : JValue → Option α) :
    List (String × JValue) → Option (List (String × α))
  | [] => some []
  | (k, v) :: rest =>
      match f v, decFields f rest with
      | some a, some r => some ((k, a) :: r)
      | _, _ => none

/-- Decode a JSON number into a Nat (malformed input fails, never
defaults). -/
def decNat : JValue → Option Nat
  | .jnum n => if 0 ≤ n then some n.toNat else none
  | _ => none

/-- Decode a string-to-nat JSON object. -/
def decNatMap : JValue → Option (List (String × Nat))
  | .jobj fs => decFields decNat fs
  | _ => none

/-- Decode the postings object. -/
def decPostings : JValue → Option (List (String × List (String × Nat)))
  | .jobj fs => decFields decNatMap fs
  | _ => none

/-- `loadIndex`: deserialize an artifact, looking fields up by name (key
order not significant); any missing or ill-typed field fails. -/
def loadIndex (j : JValue) : Option IndexArtifact :=
  match j with
  | .jobj fs =>
      match dictGet fs "postings", dictGet fs "df",
            dictGet fs "docLen", dictGet fs "N" with
      | some jp, some jd, some jl, some jn =>
          match decPostings jp, decNatMap jd, decNatMap jl, decNat jn with
          | some p, some d, some l, some n => some ⟨p, d, l, n⟩
          | _, _, _, _ => none
      | _, _, _, _ => none
  | _ => none

/-! ## preprocessing.py (tokenize, stopwords, preprocess) -/

/-- ASCII letter test for the token pattern `[a-zA-Z]+`. -/
def isAsciiLetter (c : Char) : Bool :=
  ('a' ≤ c && c ≤ 'z') || ('A' ≤ c && c ≤ 'Z')

/-- Split a character list into the maximal runs of ASCII letters
(`TOKEN_RE.findall`); `acc` is the current run, reversed. -/
def letterRuns (acc : List Char) : List Char → List (List Char)
  | [] => if acc = [] then [] else [acc.reverse]
  | c :: rest =>
      if isAsciiLetter c then letterRuns (c :: acc) rest
      else if acc = [] then letterRuns [] rest
      else acc.reverse :: letterRuns [] rest

/-- `tokenize(text)` (preprocessing.py): letter runs, lowercased. -/
def tokenize (s : String) : List String :=
  (letterRuns [] s.data).map (fun cs => ⟨cs.map Char.toLower⟩)

/-- `DEFAULT_STOPWORDS` (preprocessing.py). -/
def defaultStopwords : List String :=
  ["yang", "dan", "di", "ke", "dari", "pada", "untuk", "dengan", "atau",
   "sebagai", "adalah", "itu", "ini", "oleh", "dalam", "akan", "dapat",
   "tidak", "lebih", "juga", "sudah", "telah", "karena", "sehingga",
   "agar", "maka", "bagi", "saat", "hingga", "antara", "serta",
   "misalnya", "yaitu", "yakni", "tersebut", "para", "sebuah", "tanpa"]

/-- `DOMAIN_STOPWORDS` (preprocessing.py). -/
def domainStopwords : List String :=
  ["tanaman", "obat", "herbal", "tradisional", "khasiat", "digunakan",
   "penggunaan", "berdasarkan", "ramuan", "bahan", "cara", "pembuatan",
   "penyakit", "kesehatan", "secara"]

/-- Modelled from the spec: the stopword set is the union of the fixed
general-language function-word list and the fixed domain-term list
(spec §4.2; the additional Sastrawi library list loaded at runtime is
outside the repository source). -/
def stopwords : List String := defaultStopwords ++ domainStopwords

/-- `remove_stopwords(tokens)` (preprocessing.py). -/
def remove_stopwords (toks : List String) : List String :=
  toks.filter (fun t => ¬ t ∈ stopwords)

/-- `preprocess(text)` (preprocessing.py): tokenize, drop stopwords, stem,
drop empties. -/
def preprocess (s : String) : List String :=
  ((remove_stopwords (tokenize s)).map stem_word).filter (fun t => t ≠ "")

/-! ## Summarizer (spec §4.8)

The `summarize` operation with a `maxChars` limit is not under src/: both
web layers call `summarize_extractive(text, idf=…, num_sentences=…,
max_chars=…)` but the summarization module under src/ takes no
`max_chars`, and the importing package's own summarization module is
absent from the source tree.  The operation is therefore modelled from
the spec. -/

/-- Sentence-terminal punctuation (spec §4.8). -/
def isTerminalPunct (c : Char) : Bool := c = '.' || c = '!' || c = '?'

/-- Whitespace for trimming and word boundaries. -/
def isWS (c : Char) : Bool := c = ' ' || c = '\n' || c = '\t' || c = '\r'

/-- Strip leading and trailing whitespace. -/
def trimChars (cs : List Char) : List Char :=
  ((cs.dropWhile isWS).reverse.dropWhile isWS).reverse

/-- Modelled from the spec: split raw text into sentence fragments at
sentence-terminal punctuation and blank-line boundaries (spec §4.8);
`acc` is the current fragment, reversed. -/
def sentenceSplit (acc : List Char) : List Char → List (List Char)
  | [] => [acc.reverse]
  | c :: rest =>
      if isTerminalPunct c then (c :: acc).reverse :: sentenceSplit [] rest
      else if c = '\n' ∧ rest.head? = some '\n' then
        acc.reverse :: sentenceSplit [] rest
      else sentenceSplit (c :: acc) rest

/-- Modelled from the spec: the sentence list of `summarize` — fragments,
trimmed, with fragments shorter than the 20-character noise threshold
discarded (spec §4.8). -/
def sentencesOf (text : String) : List (List Char) :=
  ((sentenceSplit [] text.data).map trimChars).filter
    (fun cs => 20 ≤ cs.length)

/-- Modelled from the spec: a sentence's score is the sum of the IDF
weights of its stemmed, stopword-filtered tokens — the same pipeline as
indexing (spec §4.8). -/
noncomputable def sentenceScore (idf : List (String × ℝ))
    (cs : List Char) : ℝ :=
  ((preprocess ⟨cs⟩).map (fun t => idfGetD idf t)).sum

/-- The stable selection order of the summarizer: ascending lexicographic
on (−score, originalIndex) (spec §4.8). -/
def sentLE (a b : Nat × ℝ) : Prop :=
  b.2 < a.2 ∨ (a.2 = b.2 ∧ a.1 ≤ b.1)

noncomputable instance : DecidableRel sentLE :=
  fun _ _ => Classical.propDecidable _

instance : IsTotal (Nat × ℝ) sentLE :=
  ⟨fun a b => by
    rcases lt_trichotomy a.2 b.2 with h | h | h
    · exact Or.inr (Or.inl h)
    · rcases le_total a.1 b.1 with h' | h'
      · exact Or.inl (Or.inr ⟨h, h'⟩)
      · exact Or.inr (Or.inr ⟨h.symm, h'⟩)
    · exact Or.inl (Or.inl h)⟩

instance : IsTrans (Nat × ℝ) sentLE :=
  ⟨fun a b c hab hbc => by
    rcases hab with h1 | ⟨e1, l1⟩
    · rcases hbc with h2 | ⟨e2, _⟩
      · exact Or.inl (h2.trans h1)
      · exact Or.inl (e2 ▸ h1)
    · rcases hbc with h2 | ⟨e2, l2⟩
      · exact Or.inl (e1 ▸ h2)
      · exact Or.inr ⟨e1.trans e2, l1.trans l2⟩⟩

/-- Modelled from the spec: the joined selection of `summarize` — top
`numSentences` fragments by score (stable on (−score, index)), restored
to original order, joined with single spaces (spec §4.8). -/
noncomputable def summarizeJoined (text : String) (idf : List (String × ℝ))
    (numSentences : Nat) : List Char :=
  let sents := sentencesOf text
  let scored := sents.enum.map (fun p => (p.1, sentenceScore idf p.2))
  let top := (List.insertionSort sentLE scored).take numSentences
  let idxs := List.insertionSort (· ≤ ·) (top.map Prod.fst)
  List.intercalate [' '] (idxs.map (fun i => sents.getD i []))

/-- Does a whole word end exactly after `m` characters of `j`?  True when
the character before the cut is not a space and the cut sits at the end
of `j` or directly before a space. -/
def wordEndAt (j : List Char) (m : Nat) : Bool :=
  (match j.get? (m - 1) with
   | some c => ¬ isWS c
   | none => false) &&
  (match j.get? m with
   | some c => isWS c
   | none => m = j.length)

/-- The last whole-word boundary position not exceeding `k` (0 when no
word ends within the first `k` characters). -/
def lastBoundary (j : List Char) : Nat → Nat
  | 0 => 0
  | m + 1 => if wordEndAt j (m + 1) then m + 1 else lastBoundary j m

/-- Modelled from the spec: truncation at the last whole-word boundary
not exceeding the limit (spec §4.8). -/
def wordTrunc (j : List Char) (k : Nat) : List Char :=
  j.take (lastBoundary j k)

/-- The ellipsis marker appended after truncation. -/
def ellipsisMark : List Char := ['.', '.', '.']

/-- Modelled from the spec: `summarize(documentText, idfTable,
numSentences, maxChars)` (spec §4.8, §6): empty/unsplittable input yields
the empty string; a joined selection over the `maxChars` limit is
truncated at the last whole-word boundary and given an ellipsis marker. -/
noncomputable def summarize (text : String) (idf : List (String × ℝ))
    (numSentences maxChars : Nat) : String :=
  if sentencesOf text = [] then ""
  else
    let j := summarizeJoined text idf numSentences
    if maxChars < j.length then ⟨wordTrunc j maxChars ++ ellipsisMark⟩
    else ⟨j⟩

/-! ## Lemmas about the dict and set primitives -/

theorem dictGet_dictSet_self {α : Type} (m : List (String × α)) (k : String)
    (v : α) : dictGet (dictSet m k v) k = some v := by
  induction m with
  | nil => simp [dictSet, dictGet]
  | cons p rest ih =>
      by_cases h : p.1 = k
      · simp [dictSet, dictGet, h]
      · simp [dictSet, dictGet, h, ih]

theorem dictGet_dictSet_ne {α : Type} (m : List (String × α)) (k k' : String)
    (v : α) (h : k ≠ k') : dictGet (dictSet m k v) k' = dictGet m k' := by
  induction m with
  | nil => simp [dictSet, dictGet, h]
  | cons p rest ih =>
      by_cases hp : p.1 = k
      · subst hp
        simp [dictSet, dictGet, h]
      · simp [dictSet, dictGet, hp, ih]

theorem dictSet_cons {α : Type} (p : String × α) (rest : List (String × α))
    (k : String) (v : α) :
    dictSet (p :: rest) k v =
      if p.1 = k then (k, v) :: rest else p :: dictSet rest k v := rfl

theorem keys_cons {α : Type} (p : String × α) (m : List (String × α)) :
    keys (p :: m) = p.1 :: keys m := rfl

theorem values_cons {α : Type} (p : String × α) (m : List (String × α)) :
    values (p :: m) = p.2 :: values m := rfl

theorem keys_dictSet_mem {α : Type} (m : List (String × α)) (k : String)
    (v : α) (h : k ∈ keys m) : keys (dictSet m k v) = keys m := by
  induction m with
  | nil => simp [keys] at h
  | cons p rest ih =>
      rw [dictSet_cons]
      by_cases hp : p.1 = k
      · rw [if_pos hp, keys_cons, keys_cons, hp]
      · rw [if_neg hp, keys_cons, keys_cons]
        have h' : k ∈ keys rest := by
          rcases List.mem_cons.1 (by rwa [keys_cons] at h) with hh | hh
          · exact absurd hh.symm hp
          · exact hh
        rw [ih h']

theorem keys_dictSet_not_mem {α : Type} (m : List (String × α)) (k : String)
    (v : α) (h : k ∉ keys m) : keys (dictSet m k v) = keys m ++ [k] := by
  induction m with
  | nil => simp [dictSet, keys]
  | cons p rest ih =>
      have hp : p.1 ≠ k := by
        intro e
        exact h (by rw [keys_cons, e]; exact List.mem_cons_self _ _)
      have h' : k ∉ keys rest := by
        intro hk
        exact h (by rw [keys_cons]; exact List.mem_cons_of_mem _ hk)
      rw [dictSet_cons, if_neg hp, keys_cons, keys_cons, ih h',
        List.cons_append]

theorem nodup_keys_dictSet {α : Type} (m : List (String × α)) (k : String)
    (v : α) (h : (keys m).Nodup) : (keys (dictSet m k v)).Nodup := by
  by_cases hk : k ∈ keys m
  · rw [keys_dictSet_mem m k v hk]; exact h
  · rw [keys_dictSet_not_mem m k v hk]
    simpa [List.nodup_append] using ⟨h, fun h' => hk h'⟩

theorem mem_values_dictSet {α : Type} (m : List (String × α)) (k : String)
    (v w : α) (h : w ∈ values (dictSet m k v)) : w = v ∨ w ∈ values m := by
  induction m with
  | nil => simpa [dictSet, values] using h
  | cons p rest ih =>
      rw [dictSet_cons] at h
      by_cases hp : p.1 = k
      · rw [if_pos hp, values_cons] at h
        rcases List.mem_cons.1 h with h | h
        · exact Or.inl h
        · exact Or.inr (by rw [values_cons]; exact List.mem_cons_of_mem _ h)
      · rw [if_neg hp, values_cons] at h
        rcases List.mem_cons.1 h with h | h
        · exact Or.inr (by rw [values_cons, h]; exact List.mem_cons_self _ _)
        · rcases ih h with h | h
          · exact Or.inl h
          · exact Or.inr
              (by rw [values_cons]; exact List.mem_cons_of_mem _ h)

theorem dictGet_mem {α : Type} (m : List (String × α)) (k : String) (v : α)
    (h : dictGet m k = some v) : (k, v) ∈ m := by
  induction m with
  | nil => simp [dictGet] at h
  | cons p rest ih =>
      by_cases hp : p.1 = k
      · have h2 : p.2 = v := by simpa [dictGet, hp] using h
        have h3 : (k, v) = p := by rw [← hp, ← h2]
        rw [h3]
        exact List.mem_cons_self _ _
      · exact List.mem_cons_of_mem _ (ih (by simpa [dictGet, hp] using h))

theorem dictGet_of_mem_nodup {α : Type} (m : List (String × α)) (k : String)
    (v : α) (hn : (keys m).Nodup) (h : (k, v) ∈ m) :
    dictGet m k = some v := by
  induction m with
  | nil => simp at h
  | cons p rest ih =>
      have hn2 : p.1 ∉ keys rest ∧ (keys rest).Nodup :=
        List.nodup_cons.1 (by simpa [keys] using hn)
      rcases List.mem_cons.1 h with h | h
      · rw [← h]
        simp [dictGet]
      · have hp : p.1 ≠ k := by
          intro e
          exact hn2.1
            (by simpa [keys, e] using List.mem_map_of_mem Prod.fst h)
        simp [dictGet, hp]
        exact ih hn2.2 h

theorem dictGet_mem_values {α : Type} (m : List (String × α)) (k : String)
    (v : α) (h : dictGet m k = some v) : v ∈ values m :=
  List.mem_map_of_mem Prod.snd (dictGet_mem m k v h)

theorem mem_setAdd (s : List String) (x y : String) :
    y ∈ setAdd s x ↔ y = x ∨ y ∈ s := by
  by_cases h : x ∈ s
  · rw [setAdd, if_pos h]
    refine ⟨fun hy => Or.inr hy, fun hy => ?_⟩
    rcases hy with rfl | hy
    · exact h
    · exact hy
  · rw [setAdd, if_neg h]
    simp [or_comm]

theorem nodup_setAdd (s : List String) (x : String) (h : s.Nodup) :
    (setAdd s x).Nodup := by
  by_cases hx : x ∈ s
  · simpa [setAdd, hx] using h
  · rw [setAdd, if_neg hx, List.nodup_append]
    exact ⟨h, List.nodup_singleton x,
      fun a ha hax => hx ((List.mem_singleton.1 hax) ▸ ha)⟩

theorem mem_foldl_setAdd (l : List String) (s : List String) (x : String) :
    x ∈ l.foldl setAdd s ↔ x ∈ s ∨ x ∈ l := by
  induction l generalizing s with
  | nil => simp
  | cons a rest ih =>
      rw [List.foldl_cons, ih, mem_setAdd]
      constructor
      · rintro ((rfl | h) | h)
        · exact Or.inr (List.mem_cons_self _ _)
        · exact Or.inl h
        · exact Or.inr (List.mem_cons_of_mem _ h)
      · rintro (h | h)
        · exact Or.inl (Or.inr h)
        · rcases List.mem_cons.1 h with rfl | h
          · exact Or.inl (Or.inl rfl)
          · exact Or.inr h

theorem nodup_foldl_setAdd (l : List String) (s : List String)
    (h : s.Nodup) : (l.foldl setAdd s).Nodup := by
  induction l generalizing s with
  | nil => exact h
  | cons a rest ih => exact ih _ (nodup_setAdd s a h)

theorem mem_allDocs (index : InvertedIndex) (x : String) :
    x ∈ allDocs index ↔ ∃ p ∈ index, x ∈ keys p.2 := by
  have aux : ∀ (l : InvertedIndex) (s : List String),
      x ∈ l.foldl (fun s p => (keys p.2).foldl setAdd s) s ↔
        x ∈ s ∨ ∃ p ∈ l, x ∈ keys p.2 := by
    intro l
    induction l with
    | nil => simp
    | cons q rest ih =>
        intro s
        rw [List.foldl_cons, ih, mem_foldl_setAdd]
        constructor
        · rintro ((h | h) | h)
          · exact Or.inl h
          · exact Or.inr ⟨q, List.mem_cons_self _ _, h⟩
          · rcases h with ⟨p, hp, hx⟩
            exact Or.inr ⟨p, List.mem_cons_of_mem _ hp, hx⟩
        · rintro (h | ⟨p, hp, hx⟩)
          · exact Or.inl (Or.inl h)
          · rcases List.mem_cons.1 hp with rfl | hp
            · exact Or.inl (Or.inr hx)
            · exact Or.inr ⟨p, hp, hx⟩
  rw [allDocs, aux]
  simp

theorem nodup_allDocs (index : InvertedIndex) : (allDocs index).Nodup := by
  have aux : ∀ (l : InvertedIndex) (s : List String), s.Nodup →
      (l.foldl (fun s p => (keys p.2).foldl setAdd s) s).Nodup := by
    intro l
    induction l with
    | nil => exact fun s h => h
    | cons q rest ih =>
        exact fun s h => ih _ (nodup_foldl_setAdd _ _ h)
  exact aux index [] List.nodup_nil

/-- A dict built by a key-preserving fold of `dictSet` over an association
list with distinct keys looks up to the mapped value. -/
theorem dictGet_foldl_dictSet {α β : Type} (f : α → β)
    (l : List (String × α)) (init : List (String × β)) (t : String)
    (hn : (keys l).Nodup) :
    dictGet (l.foldl (fun m p => dictSet m p.1 (f p.2)) init) t =
      match dictGet l t with
      | some v => some (f v)
      | none => dictGet init t := by
  induction l generalizing init with
  | nil => simp [dictGet]
  | cons p rest ih =>
      have hn2 : p.1 ∉ keys rest ∧ (keys rest).Nodup :=
        List.nodup_cons.1 (by rwa [keys_cons] at hn)
      rw [List.foldl_cons, ih _ hn2.2]
      by_cases hp : p.1 = t
      · subst hp
        have hrest : dictGet rest p.1 = none := by
          cases hr : dictGet rest p.1 with
          | none => rfl
          | some v =>
              exact absurd
                (List.mem_map_of_mem Prod.fst (dictGet_mem rest p.1 v hr))
                hn2.1
        have hcons : dictGet (p :: rest) p.1 = some p.2 := by
          simp [dictGet]
        rw [hrest, hcons, dictGet_dictSet_self]
      · have hcons : dictGet (p :: rest) t = dictGet rest t := by
          simp [dictGet, hp]
        rw [hcons, dictGet_dictSet_ne _ _ _ _ hp]

/-! ## compute_idf: formula, positivity, document count -/

theorem dictGet_compute_idf (index : InvertedIndex) (smooth : Bool)
    (t : String) (hn : (keys index).Nodup) :
    dictGet (compute_idf index smooth) t =
      (dictGet index t).map (idfValue (numDocs index) smooth) := by
  rw [compute_idf, dictGet_foldl_dictSet _ _ _ _ hn]
  cases dictGet index t <;> simp [dictGet]

theorem df_le_numDocs (index : InvertedIndex) (t : String)
    (ps : List (String × Nat)) (hps : (keys ps).Nodup)
    (hmem : (t, ps) ∈ index) : ps.length ≤ numDocs index := by
  have hsub : (keys ps).toFinset ⊆ (allDocs index).toFinset := by
    intro d hd
    rw [List.mem_toFinset] at hd ⊢
    exact (mem_allDocs index d).2 ⟨(t, ps), hmem, hd⟩
  calc ps.length = (keys ps).length := (List.length_map ps Prod.fst).symm
    _ = (keys ps).toFinset.card := (List.toFinset_card_of_nodup hps).symm
    _ ≤ (allDocs index).toFinset.card := Finset.card_le_card hsub
    _ = (allDocs index).length :=
        List.toFinset_card_of_nodup (nodup_allDocs index)
    _ ≤ numDocs index := le_max_right 1 _

theorem idfValue_smooth_pos (N : Nat) (ps : List (String × Nat))
    (h : ps.length ≤ N) : 0 < idfValue N true ps := by
  rw [idfValue, if_pos rfl]
  have h1 : (1 : ℝ) ≤ (1 + N) / (1 + ps.length) := by
    rw [one_le_div (by positivity)]
    have : (ps.length : ℝ) ≤ N := by exact_mod_cast h
    linarith
  have := Real.log_nonneg h1
  linarith

/-- C2: for every inverted index, smoothed `compute_idf` assigns every
term `t` of the index the value `ln((N+1)/(df(t)+1)) + 1`, where `df(t)`
is the size of `t`'s postings list, and this value is strictly
positive. -/
theorem compute_idf_smoothed_formula_and_pos :
    ∀ (index : InvertedIndex) (t : String) (ps : List (String × Nat)),
      (keys index).Nodup → (∀ q ∈ index, (keys q.2).Nodup) →
      dictGet index t = some ps →
      dictGet (compute_idf index true) t =
        some (Real.log ((numDocs index + 1) / (ps.length + 1)) + 1) ∧
      0 < Real.log ((numDocs index + 1) / (ps.length + 1)) + 1 := by
  intro index t ps hn hq hget
  have hmem := dictGet_mem index t ps hget
  have hdf : ps.length ≤ numDocs index :=
    df_le_numDocs index t ps (hq (t, ps) hmem) hmem
  have hval : idfValue (numDocs index) true ps =
      Real.log ((numDocs index + 1) / (ps.length + 1)) + 1 := by
    rw [idfValue, if_pos rfl, add_comm (1 : ℝ) (numDocs index : ℝ),
      add_comm (1 : ℝ) (ps.length : ℝ)]
  constructor
  · rw [dictGet_compute_idf index true t hn, hget, Option.map_some', hval]
  · rw [← hval]
    exact idfValue_smooth_pos _ _ hdf

/-- Witness for C2 at the one-term index `{"a": {"d1": 1}}`. -/
theorem compute_idf_smoothed_formula_and_pos_witness :
    (keys [("a", [("d1", 1)])]).Nodup ∧
    (∀ q ∈ [("a", [("d1", 1)])], (keys q.2).Nodup) ∧
    dictGet [("a", [("d1", 1)])] "a" = some [("d1", 1)] ∧
    (dictGet (compute_idf [("a", [("d1", 1)])] true) "a" =
        some (Real.log ((numDocs [("a", [("d1", 1)])] + 1) /
          (([("d1", 1)] : List (String × Nat)).length + 1)) + 1) ∧
      0 < Real.log ((numDocs [("a", [("d1", 1)])] + 1) /
          (([("d1", 1)] : List (String × Nat)).length + 1)) + 1) :=
  ⟨by decide, by decide, by decide,
    compute_idf_smoothed_formula_and_pos [("a", [("d1", 1)])] "a"
      [("d1", 1)] (by decide) (by decide) (by decide)⟩

/-- C10: `compute_idf` derives the document count as the number of
distinct document ids appearing in any postings list, floored at one;
an index whose postings are all empty uses N = 1 (so the smoothed idf of
a df-0 term is `ln 2 + 1`), and documents contributing no indexed term
do not count (a two-document corpus whose second document is entirely
filtered out yields N = 1). -/
theorem numDocs_distinct_floor :
    (∀ index : InvertedIndex,
        numDocs index =
          max 1 ((index.flatMap (fun p => keys p.2)).toFinset.card)) ∧
    dictGet (compute_idf [("t", [])] true) "t" = some (Real.log 2 + 1) ∧
    numDocs (build_inverted_index [("d1", ["a"]), ("d2", ["b"])]
      (some ["a"])) = 1 := by
  refine ⟨fun index => ?_, ?_, by decide⟩
  · have hfin : (allDocs index).toFinset =
        (index.flatMap (fun p => keys p.2)).toFinset := by
      ext d
      simp only [List.mem_toFinset, mem_allDocs, List.mem_flatMap]
    rw [numDocs, ← List.toFinset_card_of_nodup (nodup_allDocs index), hfin]
  · rw [dictGet_compute_idf _ true _ (by decide)]
    have h1 : numDocs [("t", [])] = 1 := by decide
    simp only [dictGet, if_pos rfl, Option.map_some', h1]
    unfold idfValue
    norm_num

/-! ## build_inverted_index: characterization of the postings -/

theorem filtCount_cons (x : String) (rest : List String)
    (allowed : Option (List String)) (t : String) :
    filtCount (x :: rest) allowed t =
      if allowedOk allowed x then
        (if x = t then filtCount rest allowed t + 1
         else filtCount rest allowed t)
      else filtCount rest allowed t := by
  by_cases ha : allowedOk allowed x
  · by_cases hx : x = t
    · subst hx
      simp [filtCount, List.filter_cons, ha, List.count_cons]
    · simp [filtCount, List.filter_cons, ha, hx, List.count_cons]
  · simp [filtCount, List.filter_cons, ha]

theorem tfFold_lookup (allowed : Option (List String)) (toks : List String)
    (m : List (String × Nat)) (t : String) :
    dictGet (toks.foldl (tfStep allowed) m) t =
      if filtCount toks allowed t = 0 then dictGet m t
      else some ((dictGet m t).getD 0 + filtCount toks allowed t) := by
  induction toks generalizing m with
  | nil => simp [filtCount]
  | cons x rest ih =>
      rw [List.foldl_cons, filtCount_cons]
      by_cases ha : allowedOk allowed x
      · by_cases hx : x = t
        · subst hx
          rw [if_pos ha, if_pos rfl, tfStep, if_pos ha, ih,
            dictGet_dictSet_self]
          by_cases h0 : filtCount rest allowed x = 0
          · simp [h0]
          · rw [if_neg h0,
              if_neg (show ¬ filtCount rest allowed x + 1 = 0 by omega),
              Option.getD_some]
            congr 1
            omega
        · rw [if_pos ha, if_neg hx, tfStep, if_pos ha, ih,
            dictGet_dictSet_ne _ _ _ _ hx]
      · rw [if_neg ha, tfStep, if_neg ha, ih]

theorem tfMap_lookup (toks : List String) (allowed : Option (List String))
    (t : String) :
    dictGet (tfMap toks allowed) t =
      if filtCount toks allowed t = 0 then none
      else some (filtCount toks allowed t) := by
  rw [tfMap, tfFold_lookup]
  simp [dictGet]

theorem nodup_keys_tfMap (toks : List String)
    (allowed : Option (List String)) : (keys (tfMap toks allowed)).Nodup := by
  have aux : ∀ (l : List String) (m : List (String × Nat)),
      (keys m).Nodup → (keys (l.foldl (tfStep allowed) m)).Nodup := by
    intro l
    induction l with
    | nil => exact fun m h => h
    | cons x rest ih =>
        intro m h
        rw [List.foldl_cons, tfStep]
        by_cases ha : allowedOk allowed x
        · rw [if_pos ha]
          exact ih _ (nodup_keys_dictSet m x _ h)
        · rw [if_neg ha]
          exact ih _ h
  exact aux toks [] List.nodup_nil

theorem postFold_lookup (docId : String) (tm : List (String × Nat))
    (idx : InvertedIndex) (hn : (keys tm).Nodup) (term doc : String) :
    lookup2 (tm.foldl (postStep docId) idx) term doc =
      if doc = docId then
        (match dictGet tm term with
         | some tf => some tf
         | none => lookup2 idx term docId)
      else lookup2 idx term doc := by
  induction tm generalizing idx with
  | nil =>
      by_cases hd : doc = docId
      · subst hd
        simp [dictGet]
      · simp [dictGet, hd]
  | cons q rest ih =>
      have hn2 : q.1 ∉ keys rest ∧ (keys rest).Nodup :=
        List.nodup_cons.1 (by rwa [keys_cons] at hn)
      rw [List.foldl_cons, ih _ hn2.2]
      by_cases hterm : q.1 = term
      · subst hterm
        have hrest : dictGet rest q.1 = none := by
          cases hr : dictGet rest q.1 with
          | none => rfl
          | some v =>
              exact absurd
                (List.mem_map_of_mem Prod.fst (dictGet_mem rest q.1 v hr))
                hn2.1
        have hhead : dictGet (q :: rest) q.1 = some q.2 := by
          simp [dictGet]
        have hidx : dictGet (postStep docId idx q) q.1 =
            some (dictSet ((dictGet idx q.1).getD []) docId q.2) := by
          rw [postStep, dictGet_dictSet_self]
        by_cases hd : doc = docId
        · subst hd
          rw [if_pos rfl, if_pos rfl, hrest, hhead, lookup2, hidx,
            Option.getD_some, dictGet_dictSet_self]
        · rw [if_neg hd, if_neg hd, lookup2, hidx, Option.getD_some,
            dictGet_dictSet_ne _ _ _ _ (fun h => hd h.symm), lookup2]
      · have hhead : dictGet (q :: rest) term = dictGet rest term := by
          simp [dictGet, hterm]
        have hidx : ∀ d, lookup2 (postStep docId idx q) term d =
            lookup2 idx term d := by
          intro d
          rw [lookup2, postStep, dictGet_dictSet_ne _ _ _ _ hterm, lookup2]
        rw [hhead]
        by_cases hd : doc = docId
        · subst hd
          rw [if_pos rfl, if_pos rfl]
          cases dictGet rest term with
          | none => rw [hidx]
          | some tf => rfl
        · rw [if_neg hd, if_neg hd, hidx]

theorem buildFold_lookup (allowed : Option (List String))
    (dts : List (String × List String)) (idx : InvertedIndex)
    (hn : (keys dts).Nodup)
    (hfresh : ∀ t d, d ∈ keys dts → lookup2 idx t d = none)
    (term doc : String) :
    lookup2 (dts.foldl
        (fun index p => (tfMap p.2 allowed).foldl (postStep p.1) index)
        idx) term doc =
      match dictGet dts doc with
      | some toks =>
          if filtCount toks allowed term = 0 then none
          else some (filtCount toks allowed term)
      | none => lookup2 idx term doc := by
  induction dts generalizing idx with
  | nil => simp [dictGet]
  | cons p rest ih =>
      have hn2 : p.1 ∉ keys rest ∧ (keys rest).Nodup :=
        List.nodup_cons.1 (by rwa [keys_cons] at hn)
      rw [List.foldl_cons]
      have hstep := fun t d =>
        postFold_lookup p.1 (tfMap p.2 allowed)
          idx (nodup_keys_tfMap p.2 allowed) t d
      have hfresh' : ∀ t d, d ∈ keys rest →
          lookup2 ((tfMap p.2 allowed).foldl (postStep p.1) idx) t d =
            none := by
        intro t d hd
        have hne : d ≠ p.1 := by
          intro e
          exact hn2.1 (e ▸ hd)
        rw [hstep t d, if_neg hne]
        exact hfresh t d (by rw [keys_cons]; exact List.mem_cons_of_mem _ hd)
      rw [ih _ hn2.2 hfresh']
      by_cases hd : doc = p.1
      · have hnotmem : doc ∉ keys rest := by
          rw [hd]
          exact hn2.1
        have hdrest : dictGet rest doc = none := by
          cases hr : dictGet rest doc with
          | none => rfl
          | some v =>
              exact absurd
                (List.mem_map_of_mem Prod.fst (dictGet_mem rest doc v hr))
                hnotmem
        have hdhead : dictGet (p :: rest) doc = some p.2 := by
          have he : p.1 = doc := hd.symm
          simp [dictGet, he]
        rw [hdrest, hdhead, hstep term doc, if_pos hd]
        by_cases h0 : filtCount p.2 allowed term = 0
        · rw [tfMap_lookup, if_pos h0]
          show lookup2 idx term p.1 =
            if filtCount p.2 allowed term = 0 then none
            else some (filtCount p.2 allowed term)
          rw [if_pos h0, ← hd]
          exact hfresh term doc
            (by rw [keys_cons, ← hd]; exact List.mem_cons_self _ _)
        · rw [tfMap_lookup, if_neg h0]
          show some (filtCount p.2 allowed term) =
            if filtCount p.2 allowed term = 0 then none
            else some (filtCount p.2 allowed term)
          rw [if_neg h0]
      · have hdhead : dictGet (p :: rest) doc = dictGet rest doc := by
          have hne : p.1 ≠ doc := fun h => hd h.symm
          simp [dictGet, hne]
        rw [hdhead]
        cases hr : dictGet rest doc with
        | none => rw [hstep term doc, if_neg hd]
        | some toks => rfl

theorem build_lookup_spec (docTokens : List (String × List String))
    (allowed : Option (List String)) (term doc : String)
    (hn : (keys docTokens).Nodup) :
    lookup2 (build_inverted_index docTokens allowed) term doc =
      match dictGet docTokens doc with
      | some toks =>
          if filtCount toks allowed term = 0 then none
          else some (filtCount toks allowed term)
      | none => none := by
  rw [build_inverted_index,
    buildFold_lookup allowed docTokens [] hn
      (fun t d _ => by simp [lookup2, dictGet]) term doc]
  cases dictGet docTokens doc with
  | none => simp [lookup2, dictGet]
  | some toks => rfl

/-- C3: for every corpus and optional allowed-term set,
`build_inverted_index` stores, for each term, a posting for exactly the
documents where the filtered term occurs at least once, with tf equal to
the occurrence count (so every stored tf is at least 1); on the corpus
`{"d1": ["buku","ajar","ajar"], "d2": ["ajar","kelas"]}` this gives
`df["ajar"] = 2` and `postings["ajar"]["d1"] = 2`. -/
theorem build_inverted_index_characterization :
    (∀ (docTokens : List (String × List String))
       (allowed : Option (List String)) (term doc : String),
       (keys docTokens).Nodup →
       lookup2 (build_inverted_index docTokens allowed) term doc =
         (match dictGet docTokens doc with
          | some toks =>
              if filtCount toks allowed term = 0 then none
              else some (filtCount toks allowed term)
          | none => none) ∧
       ∀ tf, lookup2 (build_inverted_index docTokens allowed) term doc =
           some tf → 1 ≤ tf) ∧
    dfOf (build_inverted_index
      [("d1", ["buku", "ajar", "ajar"]), ("d2", ["ajar", "kelas"])] none)
      "ajar" = 2 ∧
    lookup2 (build_inverted_index
      [("d1", ["buku", "ajar", "ajar"]), ("d2", ["ajar", "kelas"])] none)
      "ajar" "d1" = some 2 := by
  refine ⟨fun docTokens allowed term doc hn =>
    ⟨build_lookup_spec docTokens allowed term doc hn, ?_⟩,
    by decide, by decide⟩
  intro tf htf
  rw [build_lookup_spec docTokens allowed term doc hn] at htf
  cases hdoc : dictGet docTokens doc with
  | none =>
      rw [hdoc] at htf
      have htf2 : (none : Option Nat) = some tf := htf
      exact absurd htf2 (by simp)
  | some toks =>
      rw [hdoc] at htf
      have htf2 : (if filtCount toks allowed term = 0 then none
          else some (filtCount toks allowed term)) = some tf := htf
      by_cases h0 : filtCount toks allowed term = 0
      · rw [if_pos h0] at htf2
        exact absurd htf2 (by simp)
      · rw [if_neg h0] at htf2
        have := Option.some.inj htf2
        omega

/-- Witness for C3 at the two-document example corpus. -/
theorem build_inverted_index_characterization_witness :
    (keys [("d1", ["buku", "ajar", "ajar"]), ("d2", ["ajar", "kelas"])]).Nodup ∧
    (lookup2 (build_inverted_index
        [("d1", ["buku", "ajar", "ajar"]), ("d2", ["ajar", "kelas"])] none)
        "ajar" "d1" =
      (match dictGet [("d1", ["buku", "ajar", "ajar"]),
          ("d2", ["ajar", "kelas"])] "d1" with
       | some toks =>
           if filtCount toks none "ajar" = 0 then none
           else some (filtCount toks none "ajar")
       | none => none) ∧
     ∀ tf, lookup2 (build_inverted_index
         [("d1", ["buku", "ajar", "ajar"]), ("d2", ["ajar", "kelas"])] none)
         "ajar" "d1" = some tf → 1 ≤ tf) :=
  ⟨by decide,
    build_inverted_index_characterization.1
      [("d1", ["buku", "ajar", "ajar"]), ("d2", ["ajar", "kelas"])] none
      "ajar" "d1" (by decide)⟩

/-! ## Stemmer scenarios -/

/-- C1 (code-bug evidence): the nasal-assimilation substitution for the
`meny` family is unreachable — the bare `me` deletion branch runs first,
so `stem("menyapu")` yields `"nyapu"` instead of the `"sapu"` that the
rule (and the code's own `menyV -> sV` comment) prescribes; the `peny`
family branch is reachable and does substitute. -/
theorem meny_rule_shadowed_peny_works :
    stem_word "menyapu" = "nyapu" ∧ stem_word "penyapu" = "sapu" := by
  decide

/-- C9: the stemmer strips a trailing particle and a trailing possessive
pronoun under the measure gate: `stem("makanlah") = "makan"` and
`stem("bukunya") = "buku"`. -/
theorem particle_possessive_scenarios :
    stem_word "makanlah" = "makan" ∧ stem_word "bukunya" = "buku" := by
  decide

/-! ## Vector normalization: L2 norms -/

theorem sumsq_nonneg (l : List ℝ) : 0 ≤ (l.map (fun v => v * v)).sum :=
  List.sum_nonneg (fun x hx => by
    rcases List.mem_map.1 hx with ⟨v, _, rfl⟩
    exact mul_self_nonneg v)

theorem values_map_div (c : ℝ) (vec : List (String × ℝ)) :
    values (vec.map (fun p => (p.1, p.2 / c))) =
      (values vec).map (fun v => v / c) := by
  simp [values, List.map_map]

theorem sumsq_normalize (vec : List (String × ℝ)) :
    ((values (normalize vec)).map (fun v => v * v)).sum =
      ((values vec).map (fun v => v * v)).sum *
        ((if l2norm vec = 0 then 1 else l2norm vec) *
          (if l2norm vec = 0 then 1 else l2norm vec))⁻¹ := by
  simp only [normalize]
  rw [values_map_div, List.map_map]
  have hc : ((fun v => v * v) ∘
      fun v => v / (if l2norm vec = 0 then 1 else l2norm vec)) =
      fun v => (v * v) *
        ((if l2norm vec = 0 then 1 else l2norm vec) *
          (if l2norm vec = 0 then 1 else l2norm vec))⁻¹ := by
    funext v
    show (v / _) * (v / _) = _
    ring
  rw [hc, List.sum_map_mul_right]

theorem l2norm_normalize_zero (vec : List (String × ℝ))
    (h : l2norm vec = 0) : l2norm (normalize vec) = 0 := by
  rw [l2norm, sumsq_normalize, if_pos h]
  norm_num
  exact h

theorem l2norm_normalize_one (vec : List (String × ℝ))
    (h : l2norm vec ≠ 0) : l2norm (normalize vec) = 1 := by
  have hS0 : 0 ≤ ((values vec).map (fun v => v * v)).sum :=
    sumsq_nonneg (values vec)
  have hS : ((values vec).map (fun v => v * v)).sum ≠ 0 := by
    intro e
    exact h (by rw [l2norm, e, Real.sqrt_zero])
  rw [l2norm, sumsq_normalize, if_neg h, l2norm,
    Real.mul_self_sqrt hS0, mul_inv_cancel₀ hS, Real.sqrt_one]

theorem l2norm_normalize_dichotomy (vec : List (String × ℝ)) :
    l2norm (normalize vec) = 0 ∨ l2norm (normalize vec) = 1 := by
  by_cases h : l2norm vec = 0
  · exact Or.inl (l2norm_normalize_zero vec h)
  · exact Or.inr (l2norm_normalize_one vec h)

theorem l2norm_ne_zero_of_entries (vec : List (String × ℝ))
    (hne : vec ≠ []) (hall : ∀ p ∈ vec, p.2 ≠ 0) : l2norm vec ≠ 0 := by
  cases vec with
  | nil => exact absurd rfl hne
  | cons q rest =>
      have hpos : 0 < ((values (q :: rest)).map (fun v => v * v)).sum := by
        rw [values_cons, List.map_cons, List.sum_cons]
        have h1 : 0 < q.2 * q.2 :=
          mul_self_pos.2 (hall q (List.mem_cons_self _ _))
        have h2 : 0 ≤ ((values rest).map (fun v => v * v)).sum :=
          sumsq_nonneg (values rest)
        linarith
      rw [l2norm]
      exact ne_of_gt (Real.sqrt_pos.2 hpos)

theorem mem_dictSet {α : Type} (m : List (String × α)) (k : String) (v : α)
    (p : String × α) (h : p ∈ dictSet m k v) : p = (k, v) ∨ p ∈ m := by
  induction m with
  | nil => simpa [dictSet] using h
  | cons q rest ih =>
      rw [dictSet_cons] at h
      by_cases hq : q.1 = k
      · rw [if_pos hq] at h
        rcases List.mem_cons.1 h with h | h
        · exact Or.inl h
        · exact Or.inr (List.mem_cons_of_mem _ h)
      · rw [if_neg hq] at h
        rcases List.mem_cons.1 h with h | h
        · exact Or.inr (h ▸ List.mem_cons_self _ _)
        · rcases ih h with h | h
          · exact Or.inl h
          · exact Or.inr (List.mem_cons_of_mem _ h)

theorem dictSet_ne_nil {α : Type} (m : List (String × α)) (k : String)
    (v : α) : dictSet m k v ≠ [] := by
  cases m with
  | nil => simp [dictSet]
  | cons q rest =>
      rw [dictSet_cons]
      by_cases hq : q.1 = k
      · simp [hq]
      · simp [hq]

theorem one_add_log_nat_pos (n : Nat) : 0 < 1 + Real.log n := by
  cases n with
  | zero => norm_num [Real.log_zero]
  | succ m =>
      have h1 : (1 : ℝ) ≤ ((m + 1 : ℕ) : ℝ) := by
        exact_mod_cast Nat.succ_le_succ (Nat.zero_le m)
      have := Real.log_nonneg h1
      linarith

theorem tfidf_ne_zero (model : TfidfModel) (tf : Nat) (t : String)
    (h : idfGetD model.idf t ≠ 0) : tfidf model tf t ≠ 0 :=
  mul_ne_zero (ne_of_gt (one_add_log_nat_pos tf)) h

theorem accum_good (index : InvertedIndex) (model : TfidfModel) :
    ∀ p ∈ accumDocVecs index model, p.2 ≠ [] ∧ ∀ q ∈ p.2, q.2 ≠ 0 := by
  have aux2 : ∀ (t : String), idfGetD model.idf t ≠ 0 →
      ∀ (ps : List (String × Nat)) (docs : List (String × List (String × ℝ))),
      (∀ p ∈ docs, p.2 ≠ [] ∧ ∀ q ∈ p.2, q.2 ≠ 0) →
      ∀ p ∈ ps.foldl
          (fun docs q =>
            dictSet docs q.1
              (dictSet ((dictGet docs q.1).getD []) t (tfidf model q.2 t)))
          docs, p.2 ≠ [] ∧ ∀ q ∈ p.2, q.2 ≠ 0 := by
    intro t ht ps
    induction ps with
    | nil => exact fun docs h => h
    | cons q ps' ih =>
        intro docs hdocs
        rw [List.foldl_cons]
        apply ih
        intro p hp
        rcases mem_dictSet _ _ _ _ hp with hp | hp
        · constructor
          · rw [hp]
            exact dictSet_ne_nil _ _ _
          · intro r hr
            rw [hp] at hr
            have hr2 := List.mem_map_of_mem Prod.snd hr
            rcases mem_values_dictSet _ _ _ _ hr2 with hr2 | hr2
            · rw [hr2]
              exact tfidf_ne_zero model q.2 t ht
            · cases hget : dictGet docs q.1 with
              | none => rw [hget] at hr2; simp [values] at hr2
              | some ov =>
                  rw [hget] at hr2
                  rcases List.mem_map.1 hr2 with ⟨r', hr', he⟩
                  rw [← he]
                  exact (hdocs (q.1, ov) (dictGet_mem _ _ _ hget)).2 r' hr'
        · exact hdocs p hp
  have aux : ∀ (l : InvertedIndex) (docs : List (String × List (String × ℝ))),
      (∀ p ∈ docs, p.2 ≠ [] ∧ ∀ q ∈ p.2, q.2 ≠ 0) →
      ∀ p ∈ l.foldl
          (fun docs p =>
            if idfGetD model.idf p.1 = 0 then docs
            else
              p.2.foldl
                (fun docs q =>
                  dictSet docs q.1
                    (dictSet ((dictGet docs q.1).getD []) p.1
                      (tfidf model q.2 p.1)))
                docs)
          docs, p.2 ≠ [] ∧ ∀ q ∈ p.2, q.2 ≠ 0 := by
    intro l
    induction l with
    | nil => exact fun docs h => h
    | cons pr rest ih =>
        intro docs hdocs
        rw [List.foldl_cons]
        apply ih
        by_cases hidf : idfGetD model.idf pr.1 = 0
        · rw [if_pos hidf]
          exact hdocs
        · rw [if_neg hidf]
          exact aux2 pr.1 hidf pr.2 docs hdocs
  exact aux index [] (by simp)

theorem dictGet_map_pair {α β : Type} (g : α → β) (m : List (String × α))
    (k : String) :
    dictGet (m.map (fun p => (p.1, g p.2))) k = (dictGet m k).map g := by
  induction m with
  | nil => simp [dictGet]
  | cons p rest ih =>
      by_cases hp : p.1 = k
      · simp [dictGet, hp]
      · simp [dictGet, hp, ih]

/-- C4 (amended): every document vector produced by `build_doc_vectors`
has L2 norm exactly 1, and every query vector produced by
`build_query_vector` has L2 norm 0 or 1 — but the norm-0 case is not
limited to vectors with no terms (see the counterexample: a one-term
query whose term has idf 0 yields a nonempty vector of norm 0). -/
theorem vector_norms :
    (∀ (index : InvertedIndex) (model : TfidfModel) (d : String)
       (vec : List (String × ℝ)),
       dictGet (build_doc_vectors index model) d = some vec →
       l2norm vec = 1) ∧
    (∀ (q : List String) (model : TfidfModel),
       l2norm (build_query_vector q model) = 0 ∨
       l2norm (build_query_vector q model) = 1) := by
  constructor
  · intro index model d vec hget
    rw [build_doc_vectors,
      dictGet_map_pair normalize (accumDocVecs index model) d] at hget
    cases haccum : dictGet (accumDocVecs index model) d with
    | none => rw [haccum] at hget; simp at hget
    | some v0 =>
        rw [haccum, Option.map_some'] at hget
        have hv := accum_good index model (d, v0) (dictGet_mem _ _ _ haccum)
        have h1 := l2norm_normalize_one v0
          (l2norm_ne_zero_of_entries v0 hv.1 hv.2)
        rw [← Option.some.inj hget]
        exact h1
  · intro q model
    simp only [build_query_vector]
    exact l2norm_normalize_dichotomy _

/-- Witness for C4 at a one-term index with idf 1. -/
theorem vector_norms_witness :
    dictGet (build_doc_vectors [("a", [("d1", 1)])]
        ⟨[("a", (1 : ℝ))]⟩) "d1" =
      some (normalize [("a", tfidf ⟨[("a", (1 : ℝ))]⟩ 1 "a")]) ∧
    l2norm (normalize [("a", tfidf ⟨[("a", (1 : ℝ))]⟩ 1 "a")]) = 1 := by
  have hidf : ¬ idfGetD (TfidfModel.mk [("a", (1 : ℝ))]).idf "a" = 0 := by
    norm_num [idfGetD, dictGet]
  have hget : dictGet (build_doc_vectors [("a", [("d1", 1)])]
      ⟨[("a", (1 : ℝ))]⟩) "d1" =
      some (normalize [("a", tfidf ⟨[("a", (1 : ℝ))]⟩ 1 "a")]) := by
    simp only [build_doc_vectors, accumDocVecs, List.foldl_cons,
      List.foldl_nil, if_neg hidf]
    simp [dictGet, dictSet]
  exact ⟨hget,
    vector_norms.1 [("a", [("d1", 1)])] ⟨[("a", (1 : ℝ))]⟩ "d1" _ hget⟩

/-- C4 (counterexample to the claim as stated): a query vector can have a
term and still have norm 0 — with idf table `{"a": 0}`, the query `["a"]`
yields the nonempty vector `{"a": 0.0}`, whose L2 norm is 0, not 1. -/
theorem query_norm_zero_counterexample :
    build_query_vector ["a"] ⟨[("a", (0 : ℝ))]⟩ ≠ [] ∧
    l2norm (build_query_vector ["a"] ⟨[("a", (0 : ℝ))]⟩) = 0 := by
  have hvec : build_query_vector ["a"] ⟨[("a", (0 : ℝ))]⟩ =
      normalize [("a", tfidf ⟨[("a", (0 : ℝ))]⟩ 1 "a")] := by
    simp [build_query_vector, dictGet, dictSet]
  have hz : tfidf ⟨[("a", (0 : ℝ))]⟩ 1 "a" = 0 := by
    simp [tfidf, idfGetD, dictGet]
  have hnorm : l2norm [("a", tfidf ⟨[("a", (0 : ℝ))]⟩ 1 "a")] = 0 := by
    rw [hz]
    norm_num [l2norm, values]
  constructor
  · rw [hvec]
    simp [normalize]
  · rw [hvec]
    exact l2norm_normalize_zero _ hnorm

/-! ## retrieve and top_k -/

/-- C5 (amended): `retrieve` with `top_k = 0` returns the empty result
list; a negative `top_k` is a Python slice `scored[:top_k]`, which drops
the last `|top_k|` scored candidates and is empty only when at most
`|top_k|` candidates score positively (see the counterexample). -/
theorem retrieve_topk_zero :
    ∀ (qVec : List (String × ℝ)) (index : InvertedIndex)
      (docVecs : List (String × List (String × ℝ))),
      retrieve qVec index docVecs 0 = [] := by
  intro q i d
  rw [retrieve, pySlice, if_pos le_rfl]
  simp

/-- C5 (counterexample to the claim as stated): `top_k = -1 ≤ 0`, yet with
two positively-scored candidates `retrieve` returns one result, not an
empty list (Python slice semantics `scored[:-1]`). -/
theorem retrieve_topk_negative_counterexample :
    ((-1 : Int) ≤ 0) ∧
    retrieve [("a", (1 : ℝ))] [("a", [("d1", 1), ("d2", 1)])]
      [("d1", [("a", (1 : ℝ))]), ("d2", [("a", (1 : ℝ))])] (-1) ≠ [] := by
  refine ⟨by norm_num, ?_⟩
  have hcand : candidates [("a", (1 : ℝ))]
      [("a", [("d1", 1), ("d2", 1)])] = ["d1", "d2"] := rfl
  have hd1 : (dictGet [("d1", [("a", (1 : ℝ))]), ("d2", [("a", (1 : ℝ))])]
      "d1").getD [] = [("a", (1 : ℝ))] := rfl
  have hd2 : (dictGet [("d1", [("a", (1 : ℝ))]), ("d2", [("a", (1 : ℝ))])]
      "d2").getD [] = [("a", (1 : ℝ))] := rfl
  have hc1 : cosine [("a", (1 : ℝ))] [("a", (1 : ℝ))] = 1 := by
    rw [cosine, if_neg (by simp), if_neg (by simp)]
    simp [dotImpl, dictGet]
  have hscored : scoredList [("a", (1 : ℝ))]
      [("a", [("d1", 1), ("d2", 1)])]
      [("d1", [("a", (1 : ℝ))]), ("d2", [("a", (1 : ℝ))])] =
      [("d1", (1 : ℝ)), ("d2", (1 : ℝ))] := by
    simp only [scoredList, hcand, List.foldl_cons, List.foldl_nil]
    rw [hd1, hd2, hc1]
    simp only [if_pos (show (0 : ℝ) < 1 by norm_num)]
    simp
  have hlen : (List.insertionSort scoreGE
      [("d1", (1 : ℝ)), ("d2", (1 : ℝ))]).length = 2 := by
    rw [List.length_insertionSort]
    rfl
  rw [retrieve, hscored, pySlice,
    if_neg (by norm_num : ¬ (0 : Int) ≤ -1)]
  intro he
  have hl := congrArg List.length he
  rw [List.length_take, hlen] at hl
  norm_num at hl

/-! ## select_features_df -/

theorem nodup_keys_compute_df (dt : List (String × List String)) :
    (keys (compute_df dt)).Nodup := by
  have aux2 : ∀ (toks : List String) (df : List (String × Nat)),
      (keys df).Nodup →
      (keys (toks.foldl
        (fun df t => dictSet df t ((dictGet df t).getD 0 + 1)) df)).Nodup := by
    intro toks
    induction toks with
    | nil => exact fun df h => h
    | cons x rest ih =>
        intro df h
        rw [List.foldl_cons]
        exact ih _ (nodup_keys_dictSet df x _ h)
  have aux : ∀ (l : List (String × List String)) (df : List (String × Nat)),
      (keys df).Nodup →
      (keys (l.foldl
        (fun df p =>
          p.2.dedup.foldl
            (fun df t => dictSet df t ((dictGet df t).getD 0 + 1)) df)
        df)).Nodup := by
    intro l
    induction l with
    | nil => exact fun df h => h
    | cons p rest ih =>
        intro df h
        rw [List.foldl_cons]
        exact ih _ (aux2 p.2.dedup df h)
  exact aux dt [] List.nodup_nil

theorem mem_keptSorted (dt : List (String × List String)) (m : Nat) (r : ℚ)
    (tn : Option Nat) (p : String × Nat) (hp : p ∈ keptSorted dt m r tn) :
    p ∈ keptList dt m r := by
  simp only [keptSorted] at hp
  cases tn with
  | none =>
      exact (List.mem_insertionSort dfLex).1 hp
  | some n =>
      have hp2 : p ∈
          (if n < (List.insertionSort dfLex (keptList dt m r)).length then
            List.take n (List.insertionSort dfLex (keptList dt m r))
          else List.insertionSort dfLex (keptList dt m r)) := hp
      by_cases hlt : n < (List.insertionSort dfLex (keptList dt m r)).length
      · rw [if_pos hlt] at hp2
        exact (List.mem_insertionSort dfLex).1 (List.mem_of_mem_take hp2)
      · rw [if_neg hlt] at hp2
        exact (List.mem_insertionSort dfLex).1 hp2

/-- C6: the feature selector keeps exactly the terms whose document
frequency lies in `[minDF, max(1, floor(maxDFRatio·N))]` (full
characterization when at most `topN` qualify); under the `topN` cap every
kept entry dominates every dropped entry in the deterministic
(df descending, term ascending) order; and an empty corpus yields an
empty selection with a zero-document report, not an error. -/
theorem select_features_df_spec :
    (∀ (dt : List (String × List String)) (minDf : Nat) (ratio : ℚ)
       (topN : Option Nat) (t : String),
       t ∈ (select_features_df dt minDf ratio topN).1 →
       ∃ c, dictGet (compute_df dt) t = some c ∧ minDf ≤ c ∧
         c ≤ maxDfBound ratio dt.length) ∧
    (∀ (dt : List (String × List String)) (minDf : Nat) (ratio : ℚ)
       (n : Nat) (t : String),
       (keptList dt minDf ratio).length ≤ n →
       (t ∈ (select_features_df dt minDf ratio (some n)).1 ↔
         ∃ c, dictGet (compute_df dt) t = some c ∧ minDf ≤ c ∧
           c ≤ maxDfBound ratio dt.length)) ∧
    (∀ (dt : List (String × List String)) (minDf : Nat) (ratio : ℚ)
       (n : Nat) (x y : String × Nat),
       x ∈ keptSorted dt minDf ratio (some n) →
       y ∈ (List.insertionSort dfLex (keptList dt minDf ratio)).drop n →
       dfLex x y) ∧
    (∀ (minDf : Nat) (ratio : ℚ) (topN : Option Nat),
       select_features_df [] minDf ratio topN = ([], .short 0 0 0)) := by
  refine ⟨?_, ?_, ?_, fun minDf ratio topN => rfl⟩
  · intro dt minDf ratio topN t ht
    by_cases h0 : dt.length = 0
    · rw [select_features_df, if_pos h0] at ht
      simp at ht
    · simp only [select_features_df, if_neg h0] at ht
      rcases List.mem_map.1 ht with ⟨p, hp, rfl⟩
      have hk := mem_keptSorted dt minDf ratio topN p hp
      rw [keptList] at hk
      have hf := List.mem_filter.1 hk
      have hpred := of_decide_eq_true hf.2
      exact ⟨p.2,
        dictGet_of_mem_nodup _ _ _ (nodup_keys_compute_df dt) hf.1,
        hpred.1, hpred.2⟩
  · intro dt minDf ratio n t hlen
    by_cases h0 : dt.length = 0
    · have hdt : dt = [] := List.length_eq_zero.1 h0
      subst hdt
      constructor
      · intro ht
        rw [select_features_df] at ht
        simp at ht
      · rintro ⟨c, hc, -, -⟩
        have he : compute_df [] = [] := rfl
        rw [he] at hc
        simp [dictGet] at hc
    · have hnotlt :
          ¬ n < (List.insertionSort dfLex (keptList dt minDf ratio)).length := by
        rw [List.length_insertionSort]
        omega
      simp only [select_features_df, if_neg h0, keptSorted, if_neg hnotlt]
      constructor
      · intro ht
        rcases List.mem_map.1 ht with ⟨p, hp, rfl⟩
        have hk := (List.mem_insertionSort dfLex).1 hp
        rw [keptList] at hk
        have hf := List.mem_filter.1 hk
        have hpred := of_decide_eq_true hf.2
        exact ⟨p.2,
          dictGet_of_mem_nodup _ _ _ (nodup_keys_compute_df dt) hf.1,
          hpred.1, hpred.2⟩
      · rintro ⟨c, hc, h1, h2⟩
        have hmem : (t, c) ∈ compute_df dt := dictGet_mem _ _ _ hc
        have hkept : (t, c) ∈ keptList dt minDf ratio := by
          rw [keptList]
          exact List.mem_filter.2 ⟨hmem, decide_eq_true ⟨h1, h2⟩⟩
        exact List.mem_map.2
          ⟨(t, c), (List.mem_insertionSort dfLex).2 hkept, rfl⟩
  · intro dt minDf ratio n x y hx hy
    simp only [keptSorted] at hx
    have hx2 : x ∈
        (if n < (List.insertionSort dfLex (keptList dt minDf ratio)).length
          then List.take n (List.insertionSort dfLex (keptList dt minDf ratio))
        else List.insertionSort dfLex (keptList dt minDf ratio)) := hx
    by_cases hlt : n < (List.insertionSort dfLex (keptList dt minDf ratio)).length
    · rw [if_pos hlt] at hx2
      exact (List.sorted_insertionSort dfLex
        (keptList dt minDf ratio)).rel_of_mem_take_of_mem_drop hx2 hy
    · have hnil : (List.insertionSort dfLex (keptList dt minDf ratio)).drop n
          = [] := by
        apply List.drop_eq_nil_of_le
        omega
      rw [hnil] at hy
      exact absurd hy (List.not_mem_nil y)

/-- Witness for C6: a no-cut instance (two documents, ratio 0.85) and a
capped instance (two terms of distinct df, topN = 1). -/
theorem select_features_df_spec_witness :
    ((keptList [("d1", ["x", "y"]), ("d2", ["x"])] 1 (85/100)).length ≤
        8000 ∧
      ("y" ∈ (select_features_df [("d1", ["x", "y"]), ("d2", ["x"])] 1
          (85/100) (some 8000)).1 ↔
        ∃ c, dictGet (compute_df [("d1", ["x", "y"]), ("d2", ["x"])]) "y" =
            some c ∧ 1 ≤ c ∧
          c ≤ maxDfBound (85/100)
            ([("d1", ["x", "y"]), ("d2", ["x"])] :
              List (String × List String)).length)) ∧
    (("x", 2) ∈ keptSorted [("d1", ["x", "y"]), ("d2", ["x"])] 1
        (17/10) (some 1) ∧
      ("y", 1) ∈ (List.insertionSort dfLex
        (keptList [("d1", ["x", "y"]), ("d2", ["x"])] 1
          (17/10))).drop 1 ∧
      dfLex ("x", 2) ("y", 1)) := by
  have hm : maxDfBound (85/100)
      ([("d1", ["x", "y"]), ("d2", ["x"])] :
        List (String × List String)).length = 1 := by
    norm_num [maxDfBound]
  have hkl : keptList [("d1", ["x", "y"]), ("d2", ["x"])] 1 (85/100) =
      [("y", 1)] := by
    simp only [keptList, hm]
    decide
  have hlen : (keptList [("d1", ["x", "y"]), ("d2", ["x"])] 1
      (85/100)).length ≤ 8000 := by
    rw [hkl]
    decide
  have hm2 : maxDfBound (17/10)
      ([("d1", ["x", "y"]), ("d2", ["x"])] :
        List (String × List String)).length = 3 := by
    norm_num [maxDfBound]
    decide
  have hkl2 : keptList [("d1", ["x", "y"]), ("d2", ["x"])] 1 (17/10) =
      [("x", 2), ("y", 1)] := by
    simp only [keptList, hm2]
    decide
  have hx : ("x", 2) ∈ keptSorted [("d1", ["x", "y"]), ("d2", ["x"])]
      1 (17/10) (some 1) := by
    simp only [keptSorted, hkl2]
    decide
  have hy : ("y", 1) ∈ (List.insertionSort dfLex
      (keptList [("d1", ["x", "y"]), ("d2", ["x"])] 1
        (17/10))).drop 1 := by
    rw [hkl2]
    decide
  exact ⟨⟨hlen, select_features_df_spec.2.1 _ 1 (85/100) 8000 "y" hlen⟩,
    ⟨hx, hy, select_features_df_spec.2.2.1 _ 1 (17/10) 1 _ _ hx hy⟩⟩

/-! ## Persisted index round trip -/

theorem decNat_enc (n : Nat) : decNat (.jnum n) = some n := by
  simp [decNat]

theorem decFields_enc {α : Type} (f : JValue → Option α) (g : α → JValue)
    (hfg : ∀ x, f (g x) = some x) (l : List (String × α)) :
    decFields f (l.map (fun p => (p.1, g p.2))) = some l := by
  induction l with
  | nil => rfl
  | cons p rest ih =>
      show (match f (g p.2), decFields f (rest.map _) with
        | some a, some r => some ((p.1, a) :: r)
        | _, _ => none) = some (p :: rest)
      rw [hfg p.2, ih]

theorem decNatMap_enc (m : List (String × Nat)) :
    decNatMap (encNatMap m) = some m := by
  show decFields decNat (m.map (fun p => (p.1, .jnum p.2))) = some m
  exact decFields_enc decNat (fun n => .jnum n) decNat_enc m

theorem decPostings_enc (m : List (String × List (String × Nat))) :
    decPostings (encPostings m) = some m := by
  show decFields decNatMap (m.map (fun p => (p.1, encNatMap p.2))) = some m
  exact decFields_enc decNatMap encNatMap decNatMap_enc m

/-- C8: deserializing the serialized persisted index yields a structure
equal to the original: the `postings`, `df`, `docLen` and `N` fields are
preserved exactly (the loader looks fields up by name, so object key
order is not significant). -/
theorem loadIndex_saveIndex (a : IndexArtifact) :
    loadIndex (saveIndex a) = some a := by
  show (match decPostings (encPostings a.postings),
      decNatMap (encNatMap a.df), decNatMap (encNatMap a.docLen),
      decNat (.jnum a.n) with
    | some p, some d, some l, some n =>
        some (⟨p, d, l, n⟩ : IndexArtifact)
    | _, _, _, _ => none) = some a
  rw [decPostings_enc, decNatMap_enc, decNatMap_enc, decNat_enc]

/-! ## Summarizer truncation -/

theorem lastBoundary_le (j : List Char) (k : Nat) : lastBoundary j k ≤ k := by
  induction k with
  | zero => exact le_rfl
  | succ m ih =>
      rw [lastBoundary]
      by_cases h : wordEndAt j (m + 1) = true
      · rw [if_pos h]
      · rw [if_neg h]
        exact le_trans ih (Nat.le_succ m)

theorem lastBoundary_boundary (j : List Char) (k : Nat) :
    lastBoundary j k = 0 ∨ wordEndAt j (lastBoundary j k) = true := by
  induction k with
  | zero => exact Or.inl rfl
  | succ m ih =>
      rw [lastBoundary]
      by_cases h : wordEndAt j (m + 1) = true
      · rw [if_pos h]
        exact Or.inr h
      · rw [if_neg h]
        exact ih

theorem lastBoundary_maximal (j : List Char) (k m : Nat) (hm : m ≤ k)
    (hb : wordEndAt j m = true) : m ≤ lastBoundary j k := by
  induction k with
  | zero => exact hm
  | succ p ih =>
      rw [lastBoundary]
      by_cases h : wordEndAt j (p + 1) = true
      · rw [if_pos h]
        exact hm
      · rw [if_neg h]
        rcases Nat.lt_or_ge m (p + 1) with hlt | hge
        · exact ih (Nat.lt_succ_iff.1 hlt)
        · exact absurd hb (by rw [← Nat.le_antisymm hm hge] at h; exact h)

theorem sentencesOf_nil_joined (text : String) (idf : List (String × ℝ))
    (n : Nat) (hs : sentencesOf text = []) :
    summarizeJoined text idf n = [] := by
  simp [summarizeJoined, hs, List.intercalate]

/-- C7: the summarize operation takes a `maxChars` limit, and whenever the
joined selected sentences exceed it, the output is a whole-word prefix of
the joined text of length at most `maxChars` — cut at the last word
boundary within the limit — with an ellipsis marker appended. -/
theorem summarize_truncation :
    ∀ (text : String) (idf : List (String × ℝ)) (n k : Nat),
      k < (summarizeJoined text idf n).length →
      summarize text idf n k =
        ⟨wordTrunc (summarizeJoined text idf n) k ++ ellipsisMark⟩ ∧
      (wordTrunc (summarizeJoined text idf n) k).length ≤ k ∧
      wordTrunc (summarizeJoined text idf n) k ++
        (summarizeJoined text idf n).drop
          (lastBoundary (summarizeJoined text idf n) k) =
        summarizeJoined text idf n ∧
      (lastBoundary (summarizeJoined text idf n) k = 0 ∨
        wordEndAt (summarizeJoined text idf n)
          (lastBoundary (summarizeJoined text idf n) k) = true) ∧
      (∀ m, m ≤ k →
        wordEndAt (summarizeJoined text idf n) m = true →
        m ≤ (wordTrunc (summarizeJoined text idf n) k).length) := by
  intro text idf n k hk
  have hs : sentencesOf text ≠ [] := by
    intro hs
    rw [sentencesOf_nil_joined text idf n hs] at hk
    exact absurd hk (by simp)
  have hb_le : lastBoundary (summarizeJoined text idf n) k ≤ k :=
    lastBoundary_le _ k
  have hlen : (wordTrunc (summarizeJoined text idf n) k).length =
      lastBoundary (summarizeJoined text idf n) k := by
    rw [wordTrunc, List.length_take]
    exact min_eq_left (le_trans hb_le (le_of_lt hk))
  refine ⟨?_, ?_, ?_, lastBoundary_boundary _ k, ?_⟩
  · rw [summarize, if_neg hs]
    simp only [if_pos hk]
  · rw [hlen]
    exact hb_le
  · rw [wordTrunc]
    exact List.take_append_drop _ _
  · intro m hm hb
    rw [hlen]
    exact lastBoundary_maximal _ k m hm hb

/-- Witness for C7: a single 35-character sentence with `maxChars = 20`. -/
theorem summarize_truncation_witness :
    20 < (summarizeJoined "belajar bersama teman membaca buku." [] 2).length ∧
    (summarize "belajar bersama teman membaca buku." [] 2 20 =
        ⟨wordTrunc
          (summarizeJoined "belajar bersama teman membaca buku." [] 2) 20 ++
          ellipsisMark⟩ ∧
      (wordTrunc
        (summarizeJoined "belajar bersama teman membaca buku." [] 2)
        20).length ≤ 20 ∧
      wordTrunc (summarizeJoined "belajar bersama teman membaca buku." [] 2)
          20 ++
        (summarizeJoined "belajar bersama teman membaca buku." [] 2).drop
          (lastBoundary
            (summarizeJoined "belajar bersama teman membaca buku." [] 2)
            20) =
        summarizeJoined "belajar bersama teman membaca buku." [] 2 ∧
      (lastBoundary
          (summarizeJoined "belajar bersama teman membaca buku." [] 2) 20 =
          0 ∨
        wordEndAt (summarizeJoined "belajar bersama teman membaca buku." [] 2)
          (lastBoundary
            (summarizeJoined "belajar bersama teman membaca buku." [] 2)
            20) = true) ∧
      (∀ m, m ≤ 20 →
        wordEndAt (summarizeJoined "belajar bersama teman membaca buku." [] 2)
          m = true →
        m ≤ (wordTrunc
          (summarizeJoined "belajar bersama teman membaca buku." [] 2)
          20).length)) :=
  ⟨by decide,
    summarize_truncation "belajar bersama teman membaca buku." [] 2 20
      (by decide)⟩

end IR
